import Mathlib

/-!
# Verification of `dollarwords.py`

A shallow embedding of the two core functions of the dollar-words program:

* `get_dollar_words words` — scan each word, summing per-letter values taken
  from the dictionary `letter_values = dict(zip(string.lowercase, range(1, 27)))`
  with default 0, breaking out of the inner loop as soon as the running sum
  exceeds 100, and collecting the words whose sum is exactly 100;
* `sort_by_length items` — `items.sort(key=lambda w: len(w)); return items`.

Words are lists of characters.  Python's stable `list.sort` is embedded as
`List.mergeSort` on the length key.  The in-place/aliasing behaviour of
`sort_by_length` is embedded separately as a state transformer on an explicit
heap of list objects, and the dynamic-typing behaviour of `len()` is embedded
separately with an `Except`-valued `len` over a small universe of Python
runtime values.
-/

namespace DollarWords

/-- A word: a sequence of characters. -/
abbrev Word := List Char

/-- `string.lowercase`: the lowercase ASCII alphabet `a`..`z`. -/
def string_lowercase : List Char := "abcdefghijklmnopqrstuvwxyz".toList

/-- `letter_values = dict(zip(string.lowercase, range(1, 27)))`:
the association of each lowercase letter with its 1-based alphabet position. -/
def letter_values : List (Char × Nat) := string_lowercase.zip (List.range' 1 26)

/-- `letter_values.get(letter, 0)`: dictionary lookup with default 0. -/
def letterValue (letter : Char) : Nat := (letter_values.lookup letter).getD 0

/-- The inner loop of `get_dollar_words`: starting from the running sum
`value`, add each letter's value in turn and break as soon as the running
sum exceeds 100 (`if value > 100: break`). Returns the final `value`. -/
def scanWord (value : Nat) : Word → Nat
  | [] => value
  | letter :: rest =>
    if value + letterValue letter > 100 then value + letterValue letter
    else scanWord (value + letterValue letter) rest

/-- `get_dollar_words(words)`: the outer loop appends `word` to the
accumulator `dollar_words` exactly when the (possibly short-circuited)
scan finishes with `value == 100`. -/
def get_dollar_words (words : List Word) : List Word :=
  words.foldl
    (fun dollar_words word =>
      if scanWord 0 word = 100 then dollar_words ++ [word] else dollar_words)
    []

/-- The plain full letter-value sum of a word (no short-circuiting):
the reference value against which the scan is compared. -/
def wordValue (w : Word) : Nat := (w.map letterValue).sum

/-- Formalised from the spec's words, independently of the dictionary:
a character's value is its 1-based position in the alphabet when it is a
lowercase letter `a`-`z` (code points 97..122), and 0 otherwise. -/
def specLetterValue (c : Char) : Nat :=
  if ('a').toNat ≤ c.toNat ∧ c.toNat ≤ ('z').toNat
  then c.toNat - ('a').toNat + 1 else 0

/-- `sort_by_length(items)` on a homogeneous list, parameterised by the
length measurement `len`: `items.sort(key=lambda w: len(w))` is a stable
sort on the key `len`, embedded as `List.mergeSort`. -/
def sort_by_length {α : Type} (len : α → Nat) (items : List α) : List α :=
  items.mergeSort (fun a b => decide (len a ≤ len b))

/-! ### The letter-value table -/

theorem char_toNat_inj {c d : Char} (h : c.toNat = d.toNat) : c = d :=
  Char.ext (UInt32.toNat.inj h)

theorem lookup_eq_none_of_forall_ne {l : List (Char × Nat)} {c : Char}
    (h : ∀ p ∈ l, c ≠ p.1) : l.lookup c = none := by
  induction l with
  | nil => rfl
  | cons p t ih =>
    obtain ⟨k, v⟩ := p
    have hk : (c == k) = false :=
      beq_eq_false_iff_ne.mpr (h (k, v) (List.mem_cons_self _ _))
    rw [List.lookup_cons, hk]
    exact ih fun q hq => h q (List.mem_cons_of_mem _ hq)

theorem letter_values_keys_bounded :
    ∀ p ∈ letter_values, 97 ≤ p.1.toNat ∧ p.1.toNat ≤ 122 := by decide

theorem letterValue_ofNat :
    ∀ n ∈ List.range' 97 26,
      letterValue (Char.ofNat n) = n - 96 ∧ (Char.ofNat n).toNat = n := by
  decide

/-- The dictionary lookup agrees with the closed arithmetic form. -/
theorem letterValue_eq (c : Char) : letterValue c = specLetterValue c := by
  have ha : ('a').toNat = 97 := rfl
  have hz : ('z').toNat = 122 := rfl
  by_cases h : 97 ≤ c.toNat ∧ c.toNat ≤ 122
  · have hmem : c.toNat ∈ List.range' 97 26 := by
      rw [List.mem_range']
      exact ⟨c.toNat - 97, by omega, by omega⟩
    obtain ⟨hval, htn⟩ := letterValue_ofNat c.toNat hmem
    have hc : c = Char.ofNat c.toNat := char_toNat_inj htn.symm
    rw [specLetterValue, if_pos (by omega)]
    calc letterValue c = letterValue (Char.ofNat c.toNat) := by rw [← hc]
      _ = c.toNat - 96 := hval
      _ = c.toNat - ('a').toNat + 1 := by omega
  · have hnone : letter_values.lookup c = none :=
      lookup_eq_none_of_forall_ne fun p hp he =>
        h (he ▸ letter_values_keys_bounded p hp)
    rw [letterValue, hnone, specLetterValue, if_neg (by omega)]
    rfl

theorem letterValue_le (c : Char) : letterValue c ≤ 26 := by
  have ha : ('a').toNat = 97 := rfl
  have hz : ('z').toNat = 122 := rfl
  rw [letterValue_eq, specLetterValue]
  split
  · omega
  · omega

/-! ### The early-abort scan -/

theorem wordValue_nil : wordValue [] = 0 := rfl

theorem wordValue_cons (c : Char) (w : Word) :
    wordValue (c :: w) = letterValue c + wordValue w := by
  simp [wordValue]

theorem scanWord_le (a : Nat) (w : Word) : scanWord a w ≤ a + wordValue w := by
  induction w generalizing a with
  | nil => simp [scanWord, wordValue_nil]
  | cons c rest ih =>
    rw [scanWord, wordValue_cons]
    split
    · have := wordValue_nil ▸ Nat.zero_le (wordValue rest)
      omega
    · have := ih (a + letterValue c)
      omega

theorem scanWord_eq_or_gt (a : Nat) (w : Word) :
    scanWord a w = a + wordValue w ∨ 100 < scanWord a w := by
  induction w generalizing a with
  | nil => left; simp [scanWord, wordValue_nil]
  | cons c rest ih =>
    rw [scanWord, wordValue_cons]
    split
    · right; omega
    · rcases ih (a + letterValue c) with h | h
      · left; omega
      · right; exact h

theorem scanWord_eq_100_iff (w : Word) :
    scanWord 0 w = 100 ↔ wordValue w = 100 := by
  constructor
  · intro h
    rcases scanWord_eq_or_gt 0 w with he | hg
    · omega
    · omega
  · intro h
    rcases scanWord_eq_or_gt 0 w with he | hg
    · omega
    · have := scanWord_le 0 w
      omega

/-! ### `get_dollar_words` as a filter -/

theorem get_dollar_words_foldl (acc : List Word) (ws : List Word) :
    ws.foldl
      (fun dollar_words word =>
        if scanWord 0 word = 100 then dollar_words ++ [word] else dollar_words)
      acc
      = acc ++ ws.filter (fun word => decide (scanWord 0 word = 100)) := by
  induction ws generalizing acc with
  | nil => simp
  | cons w t ih =>
    rw [List.foldl_cons, List.filter_cons]
    by_cases h : scanWord 0 w = 100
    · rw [if_pos h, ih]
      simp [h]
    · rw [if_neg h, ih]
      simp [h]

theorem get_dollar_words_eq_scan_filter (ws : List Word) :
    get_dollar_words ws = ws.filter (fun word => decide (scanWord 0 word = 100)) := by
  rw [get_dollar_words, get_dollar_words_foldl, List.nil_append]

theorem get_dollar_words_eq_filter (ws : List Word) :
    get_dollar_words ws = ws.filter (fun word => decide (wordValue word = 100)) := by
  rw [get_dollar_words_eq_scan_filter]
  exact List.filter_congr fun w _ => by
    rw [decide_eq_decide]
    exact scanWord_eq_100_iff w

theorem wordValue_append (a b : Word) :
    wordValue (a ++ b) = wordValue a + wordValue b := by
  simp [wordValue]

theorem wordValue_take_le (w : Word) {i j : Nat} (h : i ≤ j) :
    wordValue (w.take i) ≤ wordValue (w.take j) := by
  have h1 : w.take i = (w.take j).take i := by
    rw [List.take_take, Nat.min_eq_left h]
  have h2 : (w.take j).take i ++ (w.take j).drop i = w.take j :=
    List.take_append_drop i (w.take j)
  have h3 := wordValue_append ((w.take j).take i) ((w.take j).drop i)
  rw [h2] at h3
  rw [h1]
  omega

theorem wordValue_le_26_mul_length (w : Word) : wordValue w ≤ 26 * w.length := by
  induction w with
  | nil => simp [wordValue_nil]
  | cons c rest ih =>
    rw [wordValue_cons, List.length_cons]
    have := letterValue_le c
    omega

/-! ### Claim theorems -/

/-- C1: `get_dollar_words` returns exactly the input words whose total
letter value is 100 — it equals the order-preserving filter on
`wordValue = 100`, its output is a sublist of the input (same relative
order), and each qualifying word keeps its input multiplicity while
non-qualifying words never appear. -/
theorem get_dollar_words_exactly (ws : List Word) :
    get_dollar_words ws = ws.filter (fun w => decide (wordValue w = 100)) ∧
    (get_dollar_words ws).Sublist ws ∧
    ∀ w : Word, (get_dollar_words ws).count w =
      if wordValue w = 100 then ws.count w else 0 := by
  refine ⟨get_dollar_words_eq_filter ws, ?_, ?_⟩
  · rw [get_dollar_words_eq_filter]
    exact List.filter_sublist ws
  · intro w
    rw [get_dollar_words_eq_filter]
    by_cases h : wordValue w = 100
    · rw [if_pos h, List.count_filter (by simpa using h)]
    · rw [if_neg h]
      refine List.count_eq_zero.mpr fun hmem => ?_
      exact h (of_decide_eq_true ((List.mem_filter.mp hmem).2))

/-- C2: the value of a word is the sum over its characters of the 1-based
alphabet position for lowercase `a`-`z` and 0 for every other character
(uppercase, whitespace, punctuation — no case folding, no failure), and the
empty word has value 0. -/
theorem wordValue_spec (w : Word) :
    wordValue w = (w.map specLetterValue).sum ∧ wordValue [] = 0 := by
  constructor
  · rw [wordValue]
    have h : letterValue = specLetterValue := funext letterValue_eq
    rw [h]
  · rfl

/-- C4: the early-abort scan retains a word (finishes with running value
exactly 100) if and only if the plain full sum of every character's value
is exactly 100, so the short-circuit never changes the output of
`get_dollar_words`. -/
theorem scan_refines_full_scan (w : Word) (ws : List Word) :
    (scanWord 0 w = 100 ↔ wordValue w = 100) ∧
    get_dollar_words ws = ws.filter (fun v => decide (wordValue v = 100)) :=
  ⟨scanWord_eq_100_iff w, get_dollar_words_eq_filter ws⟩

/-- C6: the running value sum over a word's prefixes is monotonically
non-decreasing (per-character values are non-negative), so once a prefix
sum exceeds 100 every later prefix sum also exceeds 100 and can never
return to exactly 100. -/
theorem running_sum_monotone (w : Word) (i j : Nat) (h : i ≤ j) :
    wordValue (w.take i) ≤ wordValue (w.take j) ∧
    (100 < wordValue (w.take i) → 100 < wordValue (w.take j)) := by
  have hm := wordValue_take_le w h
  exact ⟨hm, fun hg => lt_of_lt_of_le hg hm⟩

/-- Witness for C6 at the word `zzzzz` with prefixes of lengths 4 and 5. -/
theorem running_sum_monotone_witness :
    100 < wordValue (List.take 5 ("zzzzz").toList) :=
  (running_sum_monotone ("zzzzz").toList 4 5 (by decide)).2 (by decide)

/-- C7: `get_dollar_words` distributes over concatenating the input with
itself: the output on `L ++ L` is the output on `L` followed by itself. -/
theorem get_dollar_words_append_self (L : List Word) :
    get_dollar_words (L ++ L) = get_dollar_words L ++ get_dollar_words L := by
  simp only [get_dollar_words_eq_filter, List.filter_append]

/-- C9: every word returned by `get_dollar_words` has at least 4
characters, since each character contributes at most 26. -/
theorem dollar_word_min_length (ws : List Word) (w : Word)
    (h : w ∈ get_dollar_words ws) : 4 ≤ w.length := by
  rw [get_dollar_words_eq_filter] at h
  have hv : wordValue w = 100 := of_decide_eq_true ((List.mem_filter.mp h).2)
  have hb := wordValue_le_26_mul_length w
  omega

/-- Witness for C9: `yyyy` is a dollar word of the singleton input. -/
theorem dollar_word_min_length_witness :
    4 ≤ (("yyyy").toList).length :=
  dollar_word_min_length [("yyyy").toList] ("yyyy").toList (by decide)

/-! ### Sorting by length -/

theorem lenLe_trans {α : Type} (len : α → Nat) (a b c : α)
    (hab : decide (len a ≤ len b) = true)
    (hbc : decide (len b ≤ len c) = true) :
    decide (len a ≤ len c) = true := by
  simp only [decide_eq_true_eq] at *
  omega

theorem lenLe_total {α : Type} (len : α → Nat) (a b : α) :
    (decide (len a ≤ len b) || decide (len b ≤ len a)) = true := by
  simp only [Bool.or_eq_true, decide_eq_true_eq]
  omega

theorem sort_by_length_pairwise {α : Type} (len : α → Nat) (items : List α) :
    (sort_by_length len items).Pairwise
      (fun a b => decide (len a ≤ len b) = true) :=
  List.sorted_mergeSort (lenLe_trans len) (lenLe_total len) items

theorem sort_by_length_idempotent {α : Type} (len : α → Nat) (L : List α) :
    sort_by_length len (sort_by_length len L) = sort_by_length len L :=
  List.mergeSort_of_sorted (sort_by_length_pairwise len L)

/-- C3: `sort_by_length` is a valid sort: its output is a permutation of
the input (same multiset, duplicates kept), the sequence of lengths of the
output is non-decreasing, and empty input yields empty output. -/
theorem sort_by_length_spec {α : Type} (len : α → Nat) (items : List α) :
    (sort_by_length len items).Perm items ∧
    ((sort_by_length len items).map len).Sorted (· ≤ ·) ∧
    sort_by_length len ([] : List α) = [] := by
  refine ⟨List.mergeSort_perm items _, ?_, by simp [sort_by_length]⟩
  show ((sort_by_length len items).map len).Pairwise (· ≤ ·)
  rw [List.pairwise_map]
  exact (sort_by_length_pairwise len items).imp fun h => of_decide_eq_true h

/-- C8: applying `sort_by_length` a second time changes nothing: the length
sequence is the same and the items are the same multiset (in fact the whole
list is unchanged, since the input is already sorted). -/
theorem sort_by_length_idem_spec {α : Type} (len : α → Nat) (L : List α) :
    ((sort_by_length len (sort_by_length len L)).map len
        = (sort_by_length len L).map len) ∧
    (sort_by_length len (sort_by_length len L)).Perm (sort_by_length len L) := by
  rw [sort_by_length_idempotent]
  exact ⟨rfl, List.Perm.refl _⟩

/-! ### Dynamic typing of `len()` -/

/-- A Python runtime value handed to `sort_by_length`: strings and tuples
support `len()`, integers do not. -/
inductive PyItem where
  | str (chars : List Char)
  | tup (size : Nat)
  | intObj (value : Int)
deriving DecidableEq

/-- The `TypeError` that `len()` raises on an object with no length
concept. -/
inductive PyError where
  | typeError
deriving DecidableEq

/-- Python's built-in `len()`: the length of a sized object, a `TypeError`
for an object with no length concept. -/
def pyLen : PyItem → Except PyError Nat
  | .str chars => .ok chars.length
  | .tup size => .ok size
  | .intObj _ => .error .typeError

/-- Whether an item supports a length measurement. -/
def hasLen : PyItem → Bool
  | .str _ => true
  | .tup _ => true
  | .intObj _ => false

/-- The key-building pass of `items.sort(key=lambda w: len(w))`: compute
`len` of each item in turn; the first `TypeError` propagates. -/
def computeKeys : List PyItem → Except PyError (List (Nat × PyItem))
  | [] => .ok []
  | it :: rest =>
    match pyLen it with
    | .error e => .error e
    | .ok n =>
      match computeKeys rest with
      | .error e => .error e
      | .ok keyed => .ok ((n, it) :: keyed)

/-- `sort_by_length` under dynamic typing: build the keys (any `TypeError`
from `len()` propagates to the caller unswallowed), then sort by key. -/
def sort_by_length_dyn (items : List PyItem) : Except PyError (List PyItem) :=
  match computeKeys items with
  | .error e => .error e
  | .ok keyed => .ok ((keyed.mergeSort fun a b => decide (a.1 ≤ b.1)).map Prod.snd)

/-- Whether the call returned normally. -/
def exceptOk {α : Type} : Except PyError α → Bool
  | .ok _ => true
  | .error _ => false

theorem pyLen_ok_of_hasLen {it : PyItem} (h : hasLen it = true) :
    ∃ n, pyLen it = .ok n := by
  cases it with
  | str chars => exact ⟨chars.length, rfl⟩
  | tup size => exact ⟨size, rfl⟩
  | intObj v => simp [hasLen] at h

theorem computeKeys_ok {items : List PyItem}
    (h : ∀ it ∈ items, hasLen it = true) :
    ∃ keyed, computeKeys items = .ok keyed := by
  induction items with
  | nil => exact ⟨[], rfl⟩
  | cons it rest ih =>
    obtain ⟨n, hn⟩ := pyLen_ok_of_hasLen (h it (List.mem_cons_self _ _))
    obtain ⟨keyed, hk⟩ := ih fun q hq => h q (List.mem_cons_of_mem _ hq)
    exact ⟨(n, it) :: keyed, by rw [computeKeys, hn, hk]⟩

theorem computeKeys_error {items : List PyItem}
    (h : ∃ it ∈ items, hasLen it = false) :
    computeKeys items = .error .typeError := by
  induction items with
  | nil => simp at h
  | cons it rest ih =>
    obtain ⟨bad, hmem, hbad⟩ := h
    rcases List.mem_cons.mp hmem with rfl | hrest
    · cases bad with
      | str chars => simp [hasLen] at hbad
      | tup size => simp [hasLen] at hbad
      | intObj v => rfl
    · rw [computeKeys]
      cases hp : pyLen it with
      | error e => cases e; rfl
      | ok n => rw [ih ⟨bad, hrest, hbad⟩]

/-- C5: on a list whose every item supports `len()`, `sort_by_length`
returns normally; when some item lacks a length concept the call fails
with exactly a `TypeError`, which propagates to the caller. -/
theorem sort_by_length_dyn_error_spec (items : List PyItem) :
    ((∀ it ∈ items, hasLen it = true) →
      exceptOk (sort_by_length_dyn items) = true) ∧
    ((∃ it ∈ items, hasLen it = false) →
      sort_by_length_dyn items = .error .typeError) := by
  constructor
  · intro h
    obtain ⟨keyed, hk⟩ := computeKeys_ok h
    rw [sort_by_length_dyn, hk]
    rfl
  · intro h
    rw [sort_by_length_dyn, computeKeys_error h]

/-- Witness for C5: a one-string list sorts normally; a one-integer list
raises a `TypeError`. -/
theorem sort_by_length_dyn_error_witness :
    exceptOk (sort_by_length_dyn [PyItem.str ('a' :: [])]) = true ∧
    sort_by_length_dyn [PyItem.intObj 0] = .error PyError.typeError :=
  ⟨(sort_by_length_dyn_error_spec [PyItem.str ('a' :: [])]).1 (by decide),
   (sort_by_length_dyn_error_spec [PyItem.intObj 0]).2
      ⟨PyItem.intObj 0, by decide, by decide⟩⟩

/-! ### In-place behaviour of `sort_by_length` -/

/-- A heap of Python list objects: addresses to list contents. -/
def Heap : Type := Nat → List Word

/-- `items.sort(key=lambda w: len(w))`: sort the list object at address
`addr` in place, leaving every other object untouched. -/
def list_sort_in_place (addr : Nat) (h : Heap) : Heap :=
  fun a =>
    if a = addr
    then (h addr).mergeSort (fun x y => decide (x.length ≤ y.length))
    else h a

/-- `sort_by_length(items)` as a state transformer on the heap: mutate the
list object at address `items` in place, then return that very address. -/
def sort_by_length_ref (items : Nat) (h : Heap) : Nat × Heap :=
  (items, list_sort_in_place items h)

/-- The all-empty heap, used to instantiate the frame theorem. -/
def emptyHeap : Heap := fun _ => []

/-- C10: `sort_by_length` returns the address it was given (the same list
object, not a copy), the object at that address now holds its previous
contents sorted by length, and every other address is untouched. -/
theorem sort_by_length_in_place (items other : Nat) (h : Heap)
    (hne : other ≠ items) :
    (sort_by_length_ref items h).1 = items ∧
    (sort_by_length_ref items h).2 items = sort_by_length List.length (h items) ∧
    (sort_by_length_ref items h).2 other = h other := by
  refine ⟨rfl, ?_, ?_⟩
  · simp [sort_by_length_ref, list_sort_in_place, sort_by_length]
  · simp [sort_by_length_ref, list_sort_in_place, hne]

/-- Witness for C10 on the empty heap at addresses 0 and 1. -/
theorem sort_by_length_in_place_witness :
    (sort_by_length_ref 0 emptyHeap).1 = 0 ∧
    (sort_by_length_ref 0 emptyHeap).2 0 = sort_by_length List.length (emptyHeap 0) ∧
    (sort_by_length_ref 0 emptyHeap).2 1 = emptyHeap 1 :=
  sort_by_length_in_place 0 1 emptyHeap (by decide)

end DollarWords
